import Mathlib

/-!
# Verification of `src/createDeferredEffect.ts` (classy-solid)

A shallow embedding of the deferred-effect scheduler in
`src/createDeferredEffect.ts`.  The module wraps the base reactive
primitives of an external collaborator (`solid-js`): those primitives are
modelled from the specification's external-interface contract (spec §6/§8:
a base signal is a plain get/set cell; a base effect runs its function
synchronously at registration, re-runs it whenever a signal read during its
previous completed run is written, and re-records its reads on every run;
`onCleanup` attaches a callback to the active ownership scope; the host
microtask facility queues a callback).  Everything else — the tracked
`get`/`set` closures produced by the overridden `createSignal`, the
`createDeferredEffect` entry point, and the `runEffects` flush loop — is
translated directly from the source.

Effect bodies are deep-embedded as small command programs so that the whole
system is executable: a command reads a tracked signal, reads and logs it,
logs the received previous value, writes a tracked signal, conditionally
reads (dynamic dependencies), or throws.

Identities follow the source: a signal is identified by its writer
capability (`SigId`), an effect by its function reference (`EffId`).
JavaScript `Set`/`Map` insertion-order semantics are modelled by ordered
lists with membership-guarded insertion (`Set.add` of a present element
leaves the order unchanged; `Map.set` of a fresh key appends).
-/

namespace ClassySolid

abbrev SigId := Nat
abbrev EffId := Nat
abbrev Val := Int

/-- One command of a deep-embedded effect body. -/
inductive Cmd where
  /-- `S.read()`, value discarded. -/
  | readSig (s : SigId)
  /-- `out.push(S.read())`. -/
  | pushRead (s : SigId)
  /-- `out.push(prev)` — logs the argument the effect function received. -/
  | pushPrev
  /-- `S.write(v)`. -/
  | writeSig (s : SigId) (v : Val)
  /-- `if (C.read() !== 0) S.read()` — a conditional (dynamic) dependency. -/
  | condRead (c s : SigId)
  /-- `throw` — an exception escaping the effect function. -/
  | throwErr
deriving DecidableEq, Repr

/-- An effect program: the fixed body of each effect function reference. -/
abbrev Prog := EffId → List Cmd

/-- Modelled from the spec: one base effect subscription (spec §6,
`createBaseEffect`).  `fnId` is the effect function the wrapper closure was
built around; `deps` is the list of signals read during the subscription's
previous completed run (the base primitive's own tracking, distinct from the
module's Dependency Registry). -/
structure BaseSub where
  fnId : EffId
  deps : List SigId
deriving Repr

/-- The whole-system state: base signal values and subscriptions, the
module-level mutable variables of `createDeferredEffect.ts`
(`effectQueue`, `runningEffects`, `effectDeps`, `currentEffect`,
`effectTaskIsScheduled`), the ownership scope, the host microtask queue,
and an observation log `out`. -/
structure St where
  /-- Current value of each base signal cell. -/
  sigVal : SigId → Val
  /-- Base effect subscriptions, in creation order (spec §6 collaborator). -/
  subs : List BaseSub
  /-- `effectQueue`: insertion-ordered set of pending effects (line 14). -/
  effectQueue : List EffId
  /-- `runningEffects` (line 15). -/
  runningEffects : Bool
  /-- `effectDeps`: insertion-ordered map effect → set of signal writers
  read during its last tracked run (line 18). -/
  effectDeps : List (EffId × List SigId)
  /-- `currentEffect` (line 19); `0` plays the initial dummy `() => {}`. -/
  currentEffect : EffId
  /-- `effectTaskIsScheduled` (line 61). -/
  effectTaskIsScheduled : Bool
  /-- Whether an ownership scope is active (`getOwner() !== null`). -/
  owner : Bool
  /-- Cleanup callbacks attached to the active scope; each entry `fn`
  stands for the closure registered at lines 117–120. -/
  cleanups : List EffId
  /-- Pending host microtasks; each entry is the ownership scope captured
  at scheduling time (line 105). -/
  microtasks : List Bool
  /-- Observation log written by `pushRead` / `pushPrev`. -/
  out : List (Option Val)

/-- `Set.add` on an insertion-ordered set: append only if absent. -/
def addIfAbsent (xs : List Nat) (e : Nat) : List Nat :=
  if e ∈ xs then xs else xs ++ [e]

/-- `deps.add(_set)` with entry creation (lines 33–35): add `s` to `e`'s
set, appending a fresh entry at the end of the map when `e` has none. -/
def depsRecord (m : List (EffId × List SigId)) (e : EffId) (s : SigId) :
    List (EffId × List SigId) :=
  match m with
  | [] => [(e, [s])]
  | (f, ds) :: rest =>
      if f = e then (f, addIfAbsent ds s) :: rest
      else (f, ds) :: depsRecord rest e s

/-- `effectDeps.get(fn)?.clear()` (line 88): empty `e`'s set in place when
the entry exists; no change when it does not. -/
def depsClear (m : List (EffId × List SigId)) (e : EffId) :
    List (EffId × List SigId) :=
  m.map (fun p => if p.1 = e then (p.1, ([] : List SigId)) else p)

/-- `effectDeps.delete(fn)` (line 118). -/
def depsDelete (m : List (EffId × List SigId)) (e : EffId) :
    List (EffId × List SigId) :=
  m.filter (fun p => !(p.1 == e))

/-- `effectDeps.get(e)`. -/
def depsLookup (m : List (EffId × List SigId)) (e : EffId) :
    Option (List SigId) :=
  (m.find? (fun p => p.1 == e)).map (fun p => p.2)

/-- The tracked `get` closure (lines 30–38): outside a flush, delegate to
the base reader; during a flush, additionally record this signal's writer
into the Dependency Registry entry of the currently-executing effect. -/
def signalGet (st : St) (s : SigId) : St × Val :=
  if st.runningEffects then
    ({ st with effectDeps := depsRecord st.effectDeps st.currentEffect s },
      st.sigVal s)
  else (st, st.sigVal s)

/-- `effectQueue.delete(fn); effectQueue.add(fn)` (lines 49–50): remove the
effect (wherever it is, or nowhere) and append it at the tail. -/
def moveToTail (q : List EffId) (e : EffId) : List EffId :=
  q.filter (fun x => !(x == e)) ++ [e]

/-- The registry scan of the tracked `set` closure (lines 45–53): for every
`(fn, deps)` entry of the Dependency Registry, in map insertion order,
whose set contains the written signal's writer, move `fn` to the tail of
the queue.  (The source iterates the occurrences of the inner set; since
moving an effect to the tail twice equals moving it once, a membership test
is equivalent.) -/
def reorderQueue (m : List (EffId × List SigId)) (s : SigId)
    (q : List EffId) : List EffId :=
  m.foldl (fun acc p => if s ∈ p.2 then moveToTail acc p.1 else acc) q

/-- The wrapper closure's post-initial branch (lines 94–110): add the
effect to the queue (`Set.add`: no reordering when already present); if a
flush is running, or one is already scheduled, return; otherwise set the
scheduled flag, capture the current ownership scope, and queue one flush
microtask. -/
def subsequentRun (st : St) (fn : EffId) : St :=
  let st1 := { st with effectQueue := addIfAbsent st.effectQueue fn }
  if st1.runningEffects then st1
  else if st1.effectTaskIsScheduled then st1
  else { st1 with effectTaskIsScheduled := true,
                  microtasks := st1.microtasks ++ [st1.owner] }

/-- Modelled from the spec: the base signal write (spec §6).  Update the
cell, then re-run every base subscription whose previous run read this
signal.  A re-run executes the wrapper's post-initial branch, which reads
no signals, so the triggered subscriptions' base dependency sets become
empty (the base primitive re-records reads on every run). -/
def baseSet (st : St) (s : SigId) (v : Val) : St :=
  let triggered := (st.subs.filter (fun sub => s ∈ sub.deps)).map
    (fun sub => sub.fnId)
  let st1 := { st with
    sigVal := fun x => if x = s then v else st.sigVal x,
    subs := st.subs.map (fun sub =>
      if s ∈ sub.deps then { sub with deps := [] } else sub) }
  triggered.foldl subsequentRun st1

/-- The tracked `set` closure (lines 40–56): outside a flush, delegate to
the base writer; during a flush, first run the registry scan
(`reorderQueue`), then delegate to the base writer. -/
def signalSet (st : St) (s : SigId) (v : Val) : St :=
  if st.runningEffects then
    baseSet { st with effectQueue := reorderQueue st.effectDeps s st.effectQueue } s v
  else baseSet st s v

/-- Result of running an effect body: normal return or a thrown exception
propagating to the caller. -/
inductive Outcome where
  | ok
  | threw
deriving DecidableEq, Repr

/-- Run an effect body.  Returns the final state, the list of base-level
reads performed (in order, for the base primitive's tracking of this run),
and whether the body threw.  A throw abandons the remaining commands and
propagates. -/
def runCmds (st : St) (prev : Option Val) : List Cmd → St × List SigId × Outcome
  | [] => (st, [], .ok)
  | Cmd.readSig s :: cs =>
      let p := signalGet st s
      let r := runCmds p.1 prev cs
      (r.1, s :: r.2.1, r.2.2)
  | Cmd.pushRead s :: cs =>
      let p := signalGet st s
      let r := runCmds { p.1 with out := p.1.out ++ [some p.2] } prev cs
      (r.1, s :: r.2.1, r.2.2)
  | Cmd.pushPrev :: cs =>
      runCmds { st with out := st.out ++ [prev] } prev cs
  | Cmd.writeSig s v :: cs =>
      runCmds (signalSet st s v) prev cs
  | Cmd.condRead c s :: cs =>
      let p := signalGet st c
      if p.2 ≠ 0 then
        let q := signalGet p.1 s
        let r := runCmds q.1 prev cs
        (r.1, c :: s :: r.2.1, r.2.2)
      else
        let r := runCmds p.1 prev cs
        (r.1, c :: r.2.1, r.2.2)
  | Cmd.throwErr :: _ => (st, [], .threw)

/-- Deduplicate the base reads of one run into set form. -/
def dedup (xs : List Nat) : List Nat := xs.foldl addIfAbsent []

/-- `createDeferredEffect(fn, value, options)` (lines 75–121).  The base
effect primitive (modelled from the spec, §6/§8) runs the wrapper
synchronously at registration, so the wrapper's single initial-branch
execution (lines 84–92) happens inline: set `currentEffect := fn`, clear
`fn`'s registry entry if present, run the body with the initial value, then
store the base subscription with the reads of this run, and — only when an
ownership scope is active — register the cleanup callback (lines 116–120).
An exception from the body propagates before the subscription bookkeeping
or the cleanup registration happen. -/
def createDeferredEffect (prog : Prog) (st : St) (fn : EffId)
    (value : Option Val) : St × Outcome :=
  let st1 := { st with currentEffect := fn,
                       effectDeps := depsClear st.effectDeps fn }
  let r := runCmds st1 value (prog fn)
  match r.2.2 with
  | .threw => (r.1, .threw)
  | .ok =>
      let st2 := { r.1 with subs := r.1.subs ++ [BaseSub.mk fn (dedup r.2.1)] }
      let st3 :=
        if st2.owner then { st2 with cleanups := st2.cleanups ++ [fn] }
        else st2
      (st3, .ok)

/-- The `for (const fn of effectQueue)` loop of `runEffects`
(lines 126–129), fuel-indexed: take the first queued effect, delete it,
re-register it through `createDeferredEffect(fn)` (with no initial value),
and continue; elements added during iteration are visited (JavaScript `Set`
iteration order).  When the queue is empty, reset `runningEffects` and
`effectTaskIsScheduled` and return.  `none` means the fuel ran out before
the loop terminated; a thrown exception propagates immediately, leaving the
flags as they were. -/
def runEffectsLoop (prog : Prog) : Nat → St → Option (St × Outcome)
  | 0, _ => none
  | fuel + 1, st =>
      match st.effectQueue with
      | [] => some ({ st with runningEffects := false,
                              effectTaskIsScheduled := false }, .ok)
      | fn :: rest =>
          let r := createDeferredEffect prog { st with effectQueue := rest } fn none
          match r.2 with
          | .threw => some (r.1, .threw)
          | .ok => runEffectsLoop prog fuel r.1

/-- `runEffects` (lines 123–133): set `runningEffects := true`, drain the
queue, then reset the flags. -/
def runEffects (prog : Prog) (fuel : Nat) (st : St) : Option (St × Outcome) :=
  runEffectsLoop prog fuel { st with runningEffects := true }

/-- Pop and run one pending flush microtask (lines 107–110): run
`runEffects` under the ownership scope captured at scheduling time
(`runWithOwner(owner, runEffects)` when one was captured).  The ambient
owner of the microtask context is restored to none on normal return; an
exception propagates to the host's unhandled-rejection path. -/
def runMicrotask (prog : Prog) (fuel : Nat) (st : St) :
    Option (St × Outcome) :=
  match st.microtasks with
  | [] => some (st, .ok)
  | ow :: rest =>
      match runEffects prog fuel { st with microtasks := rest, owner := ow } with
      | none => none
      | some (st1, .ok) => some ({ st1 with owner := false }, .ok)
      | some (st1, .threw) => some (st1, .threw)

/-- One cleanup callback (lines 117–120): delete the effect from the
Dependency Registry and from the Pending Queue. -/
def cleanupRun (acc : St) (fn : EffId) : St :=
  { acc with
      effectDeps := depsDelete acc.effectDeps fn,
      effectQueue := acc.effectQueue.filter (fun x => !(x == fn)) }

/-- Dispose the active ownership scope: run every registered cleanup
callback, then deactivate the scope (modelled from the spec, §6
`onCleanup`). -/
def dispose (st : St) : St :=
  let st1 := st.cleanups.foldl cleanupRun st
  { st1 with cleanups := [], owner := false }

/-- A fresh system state: given base signal values and whether an ownership
scope is active, all module-level variables at their initial values
(lines 14–19, 61). -/
def initSt (vals : SigId → Val) (owner : Bool) : St where
  sigVal := vals
  subs := []
  effectQueue := []
  runningEffects := false
  effectDeps := []
  currentEffect := 0
  effectTaskIsScheduled := false
  owner := owner
  cleanups := []
  microtasks := []
  out := []

/-! ## Derived notions and concrete scenario states used by the theorems -/

/-- The effects whose Dependency Registry entry contains the written
signal's writer, in map insertion order — exactly the effects the registry
scan of the tracked `set` moves to the tail. -/
def depFns (m : List (EffId × List SigId)) (s : SigId) : List EffId :=
  (m.filter (fun p => decide (s ∈ p.2))).map (fun p => p.1)

/-- The single-flight scheduling invariant: whenever no flush microtask is
flagged as scheduled the microtask queue is empty, and at most one flush
microtask is ever pending. -/
def SchedInv (st : St) : Prop :=
  (st.effectTaskIsScheduled = false → st.microtasks = []) ∧
    st.microtasks.length ≤ 1

/-- Spec §8 scenario: one effect that logs the value of signal `0`. -/
def progC1 : Prog := fun _ => [Cmd.pushRead 0]

/-- Spec §8 scenario after `registerDeferredEffect`. -/
def c1AfterRegister : St :=
  (createDeferredEffect progC1 (initSt (fun _ => 1) false) 1 none).1

/-- Spec §8 scenario after the synchronous `S.write(2); S.write(3)`. -/
def c1AfterWrites : St := signalSet (signalSet c1AfterRegister 0 2) 0 3

/-- An effect that logs the argument it received, then reads signal `0`. -/
def progC3 : Prog := fun _ => [Cmd.pushPrev, Cmd.readSig 0]

/-- A mid-cycle state: effect `1` is pending with a stale Dependency
Registry entry `[9]` recorded by an earlier tracked run, and a flush
microtask has been scheduled. -/
def c3Start : St :=
  { initSt (fun _ => 7) false with
      effectQueue := [1], effectDeps := [(1, [9])],
      effectTaskIsScheduled := true }

/-- An effect whose body repeatedly writes a signal it has just read:
`S.read(); S.write(5)`. -/
def progC5 : Prog := fun _ => [Cmd.readSig 0, Cmd.writeSig 0 5]

/-- A state about to flush effect `1`, whose registry entry contains the
signal its body writes. -/
def c5Start : St :=
  { initSt (fun _ => 0) false with
      effectQueue := [1], effectDeps := [(1, [0])],
      subs := [BaseSub.mk 1 [0]], effectTaskIsScheduled := true }

/-- A flush in progress with effects `1` and `2` queued, in that order. -/
def c6Start : St :=
  { initSt (fun _ => 0) false with
      effectQueue := [1, 2], runningEffects := true }

/-- A flush in progress with a Dependency Registry naming effects `1`, `2`
(dependent on signal `0`) and `3` (dependent on signal `7`). -/
def c2Start : St :=
  { initSt (fun _ => 0) false with
      runningEffects := true, effectQueue := [5, 1],
      effectDeps := [(1, [0]), (2, [0]), (3, [7])] }

/-- An effect that reads signal `1` only while signal `0` is non-zero
(spec §8, dynamic dependencies). -/
def progC7 : Prog := fun _ => [Cmd.condRead 0 1]

/-- Dynamic-dependency scenario: register the conditional effect while the
condition signal `0` is `1` (so the first run reads signal `1` too). -/
def c7AfterRegister : St :=
  (createDeferredEffect progC7 (initSt (fun s => if s = 0 then 1 else 5) false) 1 none).1

/-- ... then write `0 := 0`, falsifying the condition and queueing the
effect for a deferred replay. -/
def c7AfterCondOff : St := signalSet c7AfterRegister 0 0

/-- Program with a throwing effect `1` and a logging effect `2`. -/
def progC8 : Prog := fun fn => if fn = 1 then [Cmd.throwErr] else [Cmd.pushRead 0]

/-- A scheduled flush with the throwing effect `1` queued ahead of the
well-behaved effect `2`. -/
def c8Start : St :=
  { initSt (fun _ => 3) false with
      effectQueue := [1, 2], effectTaskIsScheduled := true,
      microtasks := [false] }

/-- Cleanup scenario: an effect logging signal `0`, registered while an
ownership scope is active. -/
def progC9 : Prog := fun _ => [Cmd.pushRead 0]

/-- Cleanup scenario after registration under the active scope. -/
def c9AfterRegister : St :=
  (createDeferredEffect progC9 (initSt (fun _ => 4) true) 1 none).1

/-- ... then a write to signal `0` queues the effect and schedules a
flush ... -/
def c9AfterWrite : St := signalSet c9AfterRegister 0 8

/-- ... and the owning scope is disposed before the flush runs. -/
def c9AfterDispose : St := dispose c9AfterWrite

/-! ## Basic lemmas about the scheduler's primitive operations -/

theorem subsequentRun_runningEffects (st : St) (fn : EffId) :
    (subsequentRun st fn).runningEffects = st.runningEffects := by
  simp only [subsequentRun]
  repeat' split
  all_goals rfl

theorem subsequentRun_owner (st : St) (fn : EffId) :
    (subsequentRun st fn).owner = st.owner := by
  simp only [subsequentRun]
  repeat' split
  all_goals rfl

theorem subsequentRun_currentEffect (st : St) (fn : EffId) :
    (subsequentRun st fn).currentEffect = st.currentEffect := by
  simp only [subsequentRun]
  repeat' split
  all_goals rfl

theorem subsequentRun_cleanups (st : St) (fn : EffId) :
    (subsequentRun st fn).cleanups = st.cleanups := by
  simp only [subsequentRun]
  repeat' split
  all_goals rfl

theorem subsequentRun_effectDeps (st : St) (fn : EffId) :
    (subsequentRun st fn).effectDeps = st.effectDeps := by
  simp only [subsequentRun]
  repeat' split
  all_goals rfl

theorem subsequentRun_subs (st : St) (fn : EffId) :
    (subsequentRun st fn).subs = st.subs := by
  simp only [subsequentRun]
  repeat' split
  all_goals rfl

theorem subsequentRun_out (st : St) (fn : EffId) :
    (subsequentRun st fn).out = st.out := by
  simp only [subsequentRun]
  repeat' split
  all_goals rfl

theorem subsequentRun_sigVal (st : St) (fn : EffId) :
    (subsequentRun st fn).sigVal = st.sigVal := by
  simp only [subsequentRun]
  repeat' split
  all_goals rfl

theorem subsequentRun_effectQueue (st : St) (fn : EffId) :
    (subsequentRun st fn).effectQueue = addIfAbsent st.effectQueue fn := by
  simp only [subsequentRun]
  repeat' split
  all_goals rfl

/-- During a flush, a base-triggered re-run of an already-queued effect is
a complete no-op on the state. -/
theorem subsequentRun_mem_running (st : St) (fn : EffId)
    (h1 : st.runningEffects = true) (h2 : fn ∈ st.effectQueue) :
    subsequentRun st fn = st := by
  cases st
  simp_all [subsequentRun, addIfAbsent]

theorem subsequentRun_microtasks_running (st : St) (fn : EffId)
    (h1 : st.runningEffects = true) :
    (subsequentRun st fn).microtasks = st.microtasks ∧
      (subsequentRun st fn).effectTaskIsScheduled = st.effectTaskIsScheduled := by
  unfold subsequentRun
  simp [h1]

theorem mem_addIfAbsent (xs : List Nat) (e x : Nat) (h : x ∈ xs) :
    x ∈ addIfAbsent xs e := by
  unfold addIfAbsent
  split
  · exact h
  · exact List.mem_append_left _ h

theorem foldl_subsequentRun_mem (l : List EffId) :
    ∀ st : St, ∀ x, x ∈ st.effectQueue →
      x ∈ (l.foldl subsequentRun st).effectQueue := by
  induction l with
  | nil => intro st x h; exact h
  | cons y ys ih =>
      intro st x h
      refine ih (subsequentRun st y) x ?_
      rw [subsequentRun_effectQueue]
      exact mem_addIfAbsent _ _ _ h

theorem foldl_subsequentRun_queue_eq (l : List EffId) :
    ∀ st : St, st.runningEffects = true → (∀ y ∈ l, y ∈ st.effectQueue) →
      l.foldl subsequentRun st = st := by
  induction l with
  | nil => intro st _ _; rfl
  | cons y ys ih =>
      intro st h1 h2
      rw [List.foldl_cons,
        subsequentRun_mem_running st y h1 (h2 y (List.mem_cons_self y ys))]
      exact ih st h1 fun z hz => h2 z (List.mem_cons_of_mem y hz)

theorem foldl_subsequentRun_preserved (l : List EffId) : ∀ st : St,
    (l.foldl subsequentRun st).runningEffects = st.runningEffects ∧
    (l.foldl subsequentRun st).owner = st.owner ∧
    (l.foldl subsequentRun st).currentEffect = st.currentEffect ∧
    (l.foldl subsequentRun st).cleanups = st.cleanups ∧
    (l.foldl subsequentRun st).out = st.out ∧
    (l.foldl subsequentRun st).effectDeps = st.effectDeps ∧
    (l.foldl subsequentRun st).subs = st.subs ∧
    (l.foldl subsequentRun st).sigVal = st.sigVal := by
  induction l with
  | nil => intro st; exact ⟨rfl, rfl, rfl, rfl, rfl, rfl, rfl, rfl⟩
  | cons y ys ih =>
      intro st
      have h := ih (subsequentRun st y)
      rw [List.foldl_cons]
      rw [subsequentRun_runningEffects, subsequentRun_owner,
        subsequentRun_currentEffect, subsequentRun_cleanups, subsequentRun_out,
        subsequentRun_effectDeps, subsequentRun_subs, subsequentRun_sigVal] at h
      exact h

theorem foldl_subsequentRun_running_sched (l : List EffId) : ∀ st : St,
    st.runningEffects = true →
    (l.foldl subsequentRun st).microtasks = st.microtasks ∧
      (l.foldl subsequentRun st).effectTaskIsScheduled = st.effectTaskIsScheduled := by
  induction l with
  | nil => intro st _; exact ⟨rfl, rfl⟩
  | cons y ys ih =>
      intro st hr
      have hr2 : (subsequentRun st y).runningEffects = true := by
        rw [subsequentRun_runningEffects]; exact hr
      have h := ih (subsequentRun st y) hr2
      have hm := subsequentRun_microtasks_running st y hr
      rw [List.foldl_cons]
      exact ⟨hm.1 ▸ h.1, hm.2 ▸ h.2⟩

theorem baseSet_preserved (st : St) (s : SigId) (v : Val) :
    (baseSet st s v).runningEffects = st.runningEffects ∧
    (baseSet st s v).owner = st.owner ∧
    (baseSet st s v).currentEffect = st.currentEffect ∧
    (baseSet st s v).cleanups = st.cleanups ∧
    (baseSet st s v).out = st.out ∧
    (baseSet st s v).effectDeps = st.effectDeps ∧
    (baseSet st s v).subs.map BaseSub.fnId = st.subs.map BaseSub.fnId := by
  unfold baseSet
  have h := foldl_subsequentRun_preserved
    ((st.subs.filter (fun sub => s ∈ sub.deps)).map (fun sub => sub.fnId))
    { st with
        sigVal := fun x => if x = s then v else st.sigVal x,
        subs := st.subs.map (fun sub =>
          if s ∈ sub.deps then { sub with deps := [] } else sub) }
  refine ⟨h.1, h.2.1, h.2.2.1, h.2.2.2.1, h.2.2.2.2.1, h.2.2.2.2.2.1, ?_⟩
  rw [h.2.2.2.2.2.2.1]
  simp only [List.map_map]
  refine List.map_congr_left fun sub _ => ?_
  by_cases hd : s ∈ sub.deps <;> simp [hd]

theorem baseSet_running_sched (st : St) (s : SigId) (v : Val)
    (h : st.runningEffects = true) :
    (baseSet st s v).microtasks = st.microtasks ∧
      (baseSet st s v).effectTaskIsScheduled = st.effectTaskIsScheduled := by
  unfold baseSet
  exact foldl_subsequentRun_running_sched _ _ h

theorem signalSet_preserved (st : St) (s : SigId) (v : Val) :
    (signalSet st s v).runningEffects = st.runningEffects ∧
    (signalSet st s v).owner = st.owner ∧
    (signalSet st s v).currentEffect = st.currentEffect ∧
    (signalSet st s v).cleanups = st.cleanups ∧
    (signalSet st s v).out = st.out ∧
    (signalSet st s v).effectDeps = st.effectDeps ∧
    (signalSet st s v).subs.map BaseSub.fnId = st.subs.map BaseSub.fnId := by
  unfold signalSet
  split
  · exact baseSet_preserved _ s v
  · exact baseSet_preserved st s v

theorem signalSet_running_sched (st : St) (s : SigId) (v : Val)
    (h : st.runningEffects = true) :
    (signalSet st s v).microtasks = st.microtasks ∧
      (signalSet st s v).effectTaskIsScheduled = st.effectTaskIsScheduled := by
  unfold signalSet
  rw [if_pos h]
  exact baseSet_running_sched _ s v h

theorem signalGet_preserved (st : St) (s : SigId) :
    (signalGet st s).1.runningEffects = st.runningEffects ∧
    (signalGet st s).1.owner = st.owner ∧
    (signalGet st s).1.currentEffect = st.currentEffect ∧
    (signalGet st s).1.cleanups = st.cleanups ∧
    (signalGet st s).1.out = st.out ∧
    (signalGet st s).1.subs = st.subs ∧
    (signalGet st s).1.microtasks = st.microtasks ∧
    (signalGet st s).1.effectTaskIsScheduled = st.effectTaskIsScheduled ∧
    (signalGet st s).1.sigVal = st.sigVal ∧
    (signalGet st s).2 = st.sigVal s := by
  unfold signalGet
  split
  all_goals exact ⟨rfl, rfl, rfl, rfl, rfl, rfl, rfl, rfl, rfl, rfl⟩

theorem runCmds_preserved (cs : List Cmd) : ∀ (st : St) (prev : Option Val),
    (runCmds st prev cs).1.runningEffects = st.runningEffects ∧
    (runCmds st prev cs).1.owner = st.owner ∧
    (runCmds st prev cs).1.currentEffect = st.currentEffect ∧
    (runCmds st prev cs).1.cleanups = st.cleanups ∧
    (runCmds st prev cs).1.subs.map BaseSub.fnId = st.subs.map BaseSub.fnId := by
  induction cs with
  | nil => intro st prev; exact ⟨rfl, rfl, rfl, rfl, rfl⟩
  | cons c cs ih =>
      intro st prev
      cases c with
      | readSig s =>
          have hg := signalGet_preserved st s
          have h := ih (signalGet st s).1 prev
          simp only [runCmds]
          exact ⟨hg.1 ▸ h.1, hg.2.1 ▸ h.2.1, hg.2.2.1 ▸ h.2.2.1,
            hg.2.2.2.1 ▸ h.2.2.2.1, hg.2.2.2.2.2.1 ▸ h.2.2.2.2⟩
      | pushRead s =>
          have hg := signalGet_preserved st s
          have h := ih { (signalGet st s).1 with
            out := (signalGet st s).1.out ++ [some (signalGet st s).2] } prev
          simp only [runCmds]
          exact ⟨hg.1 ▸ h.1, hg.2.1 ▸ h.2.1, hg.2.2.1 ▸ h.2.2.1,
            hg.2.2.2.1 ▸ h.2.2.2.1, hg.2.2.2.2.2.1 ▸ h.2.2.2.2⟩
      | pushPrev =>
          have h := ih { st with out := st.out ++ [prev] } prev
          simp only [runCmds]
          exact h
      | writeSig s v =>
          have hw := signalSet_preserved st s v
          have h := ih (signalSet st s v) prev
          simp only [runCmds]
          exact ⟨hw.1 ▸ h.1, hw.2.1 ▸ h.2.1, hw.2.2.1 ▸ h.2.2.1,
            hw.2.2.2.1 ▸ h.2.2.2.1, hw.2.2.2.2.2.2 ▸ h.2.2.2.2⟩
      | condRead c s =>
          have hg := signalGet_preserved st c
          simp only [runCmds]
          split
          · have hg2 := signalGet_preserved (signalGet st c).1 s
            have h := ih (signalGet (signalGet st c).1 s).1 prev
            dsimp only
            exact ⟨hg.1 ▸ hg2.1 ▸ h.1, hg.2.1 ▸ hg2.2.1 ▸ h.2.1,
              hg.2.2.1 ▸ hg2.2.2.1 ▸ h.2.2.1,
              hg.2.2.2.1 ▸ hg2.2.2.2.1 ▸ h.2.2.2.1,
              hg.2.2.2.2.2.1 ▸ hg2.2.2.2.2.2.1 ▸ h.2.2.2.2⟩
          · have h := ih (signalGet st c).1 prev
            dsimp only
            exact ⟨hg.1 ▸ h.1, hg.2.1 ▸ h.2.1, hg.2.2.1 ▸ h.2.2.1,
              hg.2.2.2.1 ▸ h.2.2.2.1, hg.2.2.2.2.2.1 ▸ h.2.2.2.2⟩
      | throwErr =>
          exact ⟨rfl, rfl, rfl, rfl, rfl⟩

theorem runCmds_running_sched (cs : List Cmd) : ∀ (st : St) (prev : Option Val),
    st.runningEffects = true →
    (runCmds st prev cs).1.microtasks = st.microtasks ∧
      (runCmds st prev cs).1.effectTaskIsScheduled = st.effectTaskIsScheduled := by
  induction cs with
  | nil => intro st prev _; exact ⟨rfl, rfl⟩
  | cons c cs ih =>
      intro st prev hr
      cases c with
      | readSig s =>
          have hg := signalGet_preserved st s
          have h := ih (signalGet st s).1 prev (hg.1 ▸ hr)
          simp only [runCmds]
          exact ⟨hg.2.2.2.2.2.2.1 ▸ h.1, hg.2.2.2.2.2.2.2.1 ▸ h.2⟩
      | pushRead s =>
          have hg := signalGet_preserved st s
          have h := ih { (signalGet st s).1 with
            out := (signalGet st s).1.out ++ [some (signalGet st s).2] } prev
            (hg.1 ▸ hr)
          simp only [runCmds]
          exact ⟨hg.2.2.2.2.2.2.1 ▸ h.1, hg.2.2.2.2.2.2.2.1 ▸ h.2⟩
      | pushPrev =>
          have h := ih { st with out := st.out ++ [prev] } prev hr
          simp only [runCmds]
          exact h
      | writeSig s v =>
          have hw := signalSet_preserved st s v
          have hws := signalSet_running_sched st s v hr
          have h := ih (signalSet st s v) prev (hw.1 ▸ hr)
          simp only [runCmds]
          exact ⟨hws.1 ▸ h.1, hws.2 ▸ h.2⟩
      | condRead c s =>
          have hg := signalGet_preserved st c
          simp only [runCmds]
          split
          · have hg2 := signalGet_preserved (signalGet st c).1 s
            have h := ih (signalGet (signalGet st c).1 s).1 prev
              (hg2.1 ▸ hg.1 ▸ hr)
            dsimp only
            exact ⟨hg.2.2.2.2.2.2.1 ▸ hg2.2.2.2.2.2.2.1 ▸ h.1,
              hg.2.2.2.2.2.2.2.1 ▸ hg2.2.2.2.2.2.2.2.1 ▸ h.2⟩
          · have h := ih (signalGet st c).1 prev (hg.1 ▸ hr)
            dsimp only
            exact ⟨hg.2.2.2.2.2.2.1 ▸ h.1, hg.2.2.2.2.2.2.2.1 ▸ h.2⟩
      | throwErr =>
          exact ⟨rfl, rfl⟩

theorem createDeferredEffect_runningEffects (prog : Prog) (st : St)
    (fn : EffId) (v : Option Val) :
    (createDeferredEffect prog st fn v).1.runningEffects = st.runningEffects := by
  have h := runCmds_preserved (prog fn)
    { st with currentEffect := fn, effectDeps := depsClear st.effectDeps fn } v
  simp only [createDeferredEffect]
  split
  · exact h.1
  · split
    all_goals exact h.1

theorem createDeferredEffect_running_sched (prog : Prog) (st : St)
    (fn : EffId) (v : Option Val) (hr : st.runningEffects = true) :
    (createDeferredEffect prog st fn v).1.microtasks = st.microtasks ∧
      (createDeferredEffect prog st fn v).1.effectTaskIsScheduled =
        st.effectTaskIsScheduled := by
  have h := runCmds_running_sched (prog fn)
    { st with currentEffect := fn, effectDeps := depsClear st.effectDeps fn } v hr
  simp only [createDeferredEffect]
  split
  · exact h
  · split
    all_goals exact h

/-- One iteration of the flush loop: with `fn` at the head of the queue,
the loop deletes it and replays it through `createDeferredEffect(fn)` with
no initial value, then continues (or propagates a thrown exception). -/
theorem runEffectsLoop_cons (prog : Prog) (fuel : Nat) (st : St) (fn : EffId)
    (rest : List EffId) (hq : st.effectQueue = fn :: rest) :
    runEffectsLoop prog (fuel + 1) st =
      match createDeferredEffect prog { st with effectQueue := rest } fn none with
      | (st2, Outcome.threw) => some (st2, Outcome.threw)
      | (st2, Outcome.ok) => runEffectsLoop prog fuel st2 := by
  rw [runEffectsLoop, hq]
  rcases hc : createDeferredEffect prog { st with effectQueue := rest } fn none with ⟨st2, oc⟩
  rcases oc with _ | _ <;> simp [hc]

/-- Inside a flush (entered with `runningEffects` true), the loop never
grows the microtask queue; on normal exit both flags are reset; on an
exception both flags are left exactly as they were. -/
theorem runEffectsLoop_flush (prog : Prog) (fuel : Nat) :
    ∀ (st st1 : St) (oc : Outcome), st.runningEffects = true →
    runEffectsLoop prog fuel st = some (st1, oc) →
    st1.microtasks = st.microtasks ∧
      (oc = Outcome.ok → st1.runningEffects = false ∧
        st1.effectTaskIsScheduled = false) ∧
      (oc = Outcome.threw → st1.runningEffects = true ∧
        st1.effectTaskIsScheduled = st.effectTaskIsScheduled) := by
  induction fuel with
  | zero => intro st st1 oc _ h; exact absurd h (by simp [runEffectsLoop])
  | succ fuel ih =>
      intro st st1 oc hr h
      rcases hq : st.effectQueue with _ | ⟨fn, rest⟩
      · rw [runEffectsLoop, hq] at h
        simp only [Option.some.injEq, Prod.mk.injEq] at h
        obtain ⟨h1, h2⟩ := h
        subst h1; subst h2
        exact ⟨rfl, fun _ => ⟨rfl, rfl⟩, (fun hcon => nomatch hcon)⟩
      · rw [runEffectsLoop_cons prog fuel st fn rest hq] at h
        have hr2 : ({ st with effectQueue := rest } : St).runningEffects = true := hr
        have hrun := createDeferredEffect_runningEffects prog
          { st with effectQueue := rest } fn none
        have hsched := createDeferredEffect_running_sched prog
          { st with effectQueue := rest } fn none hr2
        rcases hc : createDeferredEffect prog { st with effectQueue := rest } fn none
          with ⟨st2, oc2⟩
        rw [hc] at h hrun hsched
        rcases oc2 with _ | _
        · simp only at h
          have hrec := ih st2 st1 oc (hrun.trans hr2) h
          refine ⟨hsched.1 ▸ hrec.1, hrec.2.1, fun ht => ?_⟩
          have h2 := hrec.2.2 ht
          exact ⟨h2.1, hsched.2 ▸ h2.2⟩
        · simp only [Option.some.injEq, Prod.mk.injEq] at h
          obtain ⟨h1, h2⟩ := h
          subst h1; subst h2
          exact ⟨hsched.1, (fun hcon => nomatch hcon),
            fun _ => ⟨hrun.trans hr2, hsched.2⟩⟩

/-! ## Claim C1 -/

/-- C1: the spec §8 scenario.  Registering a deferred effect that logs
tracked signal `0` (initial value 1) runs it once synchronously, so the log
is `[1]`; the two synchronous writes `S.write(2); S.write(3)` do not re-run
it before the microtask boundary (log still `[1]`); the flush microtask
re-runs it exactly once, observing the latest value, so the log ends as
`[1, 3]` — which is not `[1, 2, 3]`. -/
theorem c1_deferred_effect_scenario :
    c1AfterRegister.out = [some 1] ∧
    c1AfterWrites.out = [some 1] ∧
    (runMicrotask progC1 10 c1AfterWrites).map
        (fun p => (p.1.out, p.1.effectQueue, p.1.microtasks, p.2)) =
      some ([some 1, some 3], [], [], Outcome.ok) ∧
    ([some 1, some 3] : List (Option Val)) ≠ [some 1, some 2, some 3] := by
  refine ⟨by decide, by decide, by decide, by decide⟩

theorem schedInv_subsequentRun (st : St) (fn : EffId) (h : SchedInv st) :
    SchedInv (subsequentRun st fn) := by
  obtain ⟨h1, h2⟩ := h
  simp only [subsequentRun]
  split
  · exact ⟨h1, h2⟩
  · split
    · exact ⟨h1, h2⟩
    · rename_i hsched
      have hempty : st.microtasks = [] := by
        refine h1 ?_
        rcases hb : st.effectTaskIsScheduled with _ | _
        · rfl
        · exact absurd hb hsched
      refine ⟨?_, ?_⟩
      · intro hc
        simp at hc
      · simp [hempty]

theorem schedInv_foldl_subsequentRun (l : List EffId) :
    ∀ st : St, SchedInv st → SchedInv (l.foldl subsequentRun st) := by
  induction l with
  | nil => intro st h; exact h
  | cons y ys ih =>
      intro st h
      exact ih (subsequentRun st y) (schedInv_subsequentRun st y h)

theorem schedInv_baseSet (st : St) (s : SigId) (v : Val) (h : SchedInv st) :
    SchedInv (baseSet st s v) := by
  unfold baseSet
  exact schedInv_foldl_subsequentRun _ _ h

theorem schedInv_signalSet (st : St) (s : SigId) (v : Val) (h : SchedInv st) :
    SchedInv (signalSet st s v) := by
  unfold signalSet
  split
  · exact schedInv_baseSet _ s v h
  · exact schedInv_baseSet st s v h

theorem schedInv_signalGet (st : St) (s : SigId) (h : SchedInv st) :
    SchedInv (signalGet st s).1 := by
  unfold signalGet
  split
  · exact h
  · exact h

theorem schedInv_runCmds (cs : List Cmd) :
    ∀ (st : St) (prev : Option Val), SchedInv st →
      SchedInv (runCmds st prev cs).1 := by
  induction cs with
  | nil => intro st prev h; exact h
  | cons c cs ih =>
      intro st prev h
      cases c with
      | readSig s =>
          simp only [runCmds]
          exact ih (signalGet st s).1 prev (schedInv_signalGet st s h)
      | pushRead s =>
          simp only [runCmds]
          exact ih _ prev (schedInv_signalGet st s h)
      | pushPrev =>
          simp only [runCmds]
          exact ih _ prev h
      | writeSig s v =>
          simp only [runCmds]
          exact ih _ prev (schedInv_signalSet st s v h)
      | condRead c s =>
          have hgc : SchedInv (signalGet st c).1 := schedInv_signalGet st c h
          have hgs : SchedInv (signalGet (signalGet st c).1 s).1 :=
            schedInv_signalGet _ s hgc
          rcases hpc : signalGet st c with ⟨stc, valc⟩
          rw [hpc] at hgc hgs
          rcases hps : signalGet stc s with ⟨sts, vals⟩
          rw [hps] at hgs
          simp only [runCmds, hpc, hps]
          split
          · exact ih _ prev hgs
          · exact ih _ prev hgc
      | throwErr =>
          exact h

theorem schedInv_createDeferredEffect (prog : Prog) (st : St) (fn : EffId)
    (v : Option Val) (h : SchedInv st) :
    SchedInv (createDeferredEffect prog st fn v).1 := by
  have hc := schedInv_runCmds (prog fn)
    { st with currentEffect := fn, effectDeps := depsClear st.effectDeps fn } v h
  simp only [createDeferredEffect]
  split
  · exact hc
  · split
    · exact hc
    · exact hc

theorem schedInv_runMicrotask (prog : Prog) (fuel : Nat) (st : St)
    (r : St × Outcome) (h : SchedInv st) (hrun : runMicrotask prog fuel st = some r) :
    SchedInv r.1 := by
  rcases hm : st.microtasks with _ | ⟨ow, rest⟩
  · rw [runMicrotask, hm] at hrun
    simp only [Option.some.injEq] at hrun
    rw [← hrun]
    exact h
  · have hrest : rest = [] := by
      have hlen := h.2
      rw [hm] at hlen
      simp only [List.length_cons] at hlen
      have hz : rest.length = 0 := by omega
      exact List.eq_nil_of_length_eq_zero hz
    subst hrest
    simp only [runMicrotask, hm] at hrun
    rcases hre : runEffects prog fuel { st with microtasks := [], owner := ow }
      with _ | ⟨st1, oc⟩
    · rw [hre] at hrun
      simp at hrun
    · rw [hre] at hrun
      have hflush := runEffectsLoop_flush prog fuel
        { st with microtasks := [], owner := ow, runningEffects := true }
        st1 oc rfl hre
      rcases oc with _ | _
      · simp only [Option.some.injEq] at hrun
        rw [← hrun]
        refine ⟨fun _ => ?_, ?_⟩
        · exact hflush.1
        · rw [hflush.1]
          exact Nat.zero_le 1
      · simp only [Option.some.injEq] at hrun
        rw [← hrun]
        refine ⟨fun _ => hflush.1, ?_⟩
        rw [hflush.1]
        exact Nat.zero_le 1

/-- C6 corrected: on every base invocation after the first run the effect
is appended to the Pending Queue if absent, but an already-queued effect
KEEPS its original position (JavaScript `Set.add` does not reorder — the
"moved to the tail" half of the claim is wrong, see the counterexample);
a flush microtask is scheduled exactly when no flush is running and none
is scheduled, capturing the current ownership scope into the task; and the
single-flight property holds: the scheduler operations preserve the
invariant that at most one flush microtask is pending (and none when the
scheduled flag is clear). -/
theorem c6_single_flight_scheduling :
    (∀ (st : St) (fn : EffId), fn ∈ st.effectQueue →
      (subsequentRun st fn).effectQueue = st.effectQueue) ∧
    (∀ (st : St) (fn : EffId), fn ∉ st.effectQueue →
      (subsequentRun st fn).effectQueue = st.effectQueue ++ [fn]) ∧
    (∀ (st : St) (fn : EffId), (subsequentRun st fn).microtasks =
      if st.runningEffects = false ∧ st.effectTaskIsScheduled = false
      then st.microtasks ++ [st.owner] else st.microtasks) ∧
    (∀ (st : St) (fn : EffId), SchedInv st → SchedInv (subsequentRun st fn)) ∧
    (∀ (prog : Prog) (st : St) (fn : EffId) (v : Option Val),
      SchedInv st → SchedInv (createDeferredEffect prog st fn v).1) ∧
    (∀ (st : St) (s : SigId) (v : Val),
      SchedInv st → SchedInv (signalSet st s v)) ∧
    (∀ (prog : Prog) (fuel : Nat) (st : St) (r : St × Outcome),
      SchedInv st → runMicrotask prog fuel st = some r → SchedInv r.1) := by
  refine ⟨?_, ?_, ?_, schedInv_subsequentRun, schedInv_createDeferredEffect,
    schedInv_signalSet, schedInv_runMicrotask⟩
  · intro st fn h
    rw [subsequentRun_effectQueue]
    simp [addIfAbsent, h]
  · intro st fn h
    rw [subsequentRun_effectQueue]
    simp [addIfAbsent, h]
  · intro st fn
    rcases h1 : st.runningEffects with _ | _ <;>
      rcases h2 : st.effectTaskIsScheduled with _ | _ <;>
        simp [subsequentRun, h1, h2]

/-- Witness for the corrected C6: a base invocation for the unqueued
effect `3` appends it to the tail of `c6Start`'s queue. -/
theorem c6_single_flight_scheduling_witness :
    (subsequentRun c6Start 3).effectQueue = c6Start.effectQueue ++ [3] :=
  c6_single_flight_scheduling.2.1 c6Start 3 (by decide)

/-! ## Claim C5 -/

theorem c5_baseSet (st : St) (hr : st.runningEffects = true)
    (hq : st.effectQueue = [1]) (hs : ∀ sub ∈ st.subs, sub.fnId = 1) :
    baseSet st 0 5 = { st with
      sigVal := fun x => if x = 0 then 5 else st.sigVal x,
      subs := st.subs.map (fun sub =>
        if 0 ∈ sub.deps then { sub with deps := [] } else sub) } := by
  unfold baseSet
  refine foldl_subsequentRun_queue_eq _ _ hr ?_
  intro y hy
  simp only [List.mem_map, List.mem_filter] at hy
  obtain ⟨sub, ⟨hsub, _⟩, rfl⟩ := hy
  show sub.fnId ∈ st.effectQueue
  rw [hs sub hsub, hq]
  exact List.mem_singleton.mpr rfl

theorem c5_signalSet (st : St) (hr : st.runningEffects = true)
    (hq : st.effectQueue = []) (hd : st.effectDeps = [(1, [0])])
    (hs : ∀ sub ∈ st.subs, sub.fnId = 1) :
    signalSet st 0 5 = { st with
      effectQueue := [1],
      sigVal := fun x => if x = 0 then 5 else st.sigVal x,
      subs := st.subs.map (fun sub =>
        if 0 ∈ sub.deps then { sub with deps := [] } else sub) } := by
  unfold signalSet
  rw [if_pos hr]
  have hre : reorderQueue st.effectDeps 0 st.effectQueue = [1] := by
    rw [hd, hq]
    rfl
  rw [hre]
  exact c5_baseSet { st with effectQueue := [1] } hr rfl hs

theorem c5_runCmds (st : St) (hr : st.runningEffects = true)
    (hq : st.effectQueue = []) (hce : st.currentEffect = 1)
    (hd : depsRecord st.effectDeps 1 0 = [(1, [0])])
    (hs : ∀ sub ∈ st.subs, sub.fnId = 1) :
    runCmds st none [Cmd.readSig 0, Cmd.writeSig 0 5] =
      ({ st with
          effectDeps := [(1, [0])],
          effectQueue := [1],
          sigVal := fun x => if x = 0 then 5 else st.sigVal x,
          subs := st.subs.map (fun sub =>
            if 0 ∈ sub.deps then { sub with deps := [] } else sub) },
        [0], Outcome.ok) := by
  have hget : signalGet st 0 = ({ st with effectDeps := [(1, [0])] }, st.sigVal 0) := by
    unfold signalGet
    rw [if_pos hr, hce, hd]
  have hset := c5_signalSet { st with effectDeps := [(1, [0])] } hr hq rfl hs
  simp only [runCmds, hget, hset]

theorem c5_step (st : St) (hr : st.runningEffects = true)
    (hq : st.effectQueue = [])
    (hd : depsRecord (depsClear st.effectDeps 1) 1 0 = [(1, [0])])
    (hs : ∀ sub ∈ st.subs, sub.fnId = 1) :
    (createDeferredEffect progC5 st 1 none).2 = Outcome.ok ∧
    (createDeferredEffect progC5 st 1 none).1.runningEffects = true ∧
    (createDeferredEffect progC5 st 1 none).1.effectQueue = [1] ∧
    depsRecord (depsClear
      (createDeferredEffect progC5 st 1 none).1.effectDeps 1) 1 0 = [(1, [0])] ∧
    ∀ sub ∈ (createDeferredEffect progC5 st 1 none).1.subs, sub.fnId = 1 := by
  have hbody : progC5 1 = [Cmd.readSig 0, Cmd.writeSig 0 5] := rfl
  have hrun := c5_runCmds
    { st with currentEffect := 1, effectDeps := depsClear st.effectDeps 1 }
    hr hq rfl hd hs
  simp only [createDeferredEffect, hbody, hrun]
  have hsubs : ∀ sub ∈ (st.subs.map (fun sub =>
      if 0 ∈ sub.deps then { sub with deps := ([] : List SigId) } else sub)) ++
        [BaseSub.mk 1 (dedup [0])], sub.fnId = 1 := by
    intro sub hsub
    rcases List.mem_append.mp hsub with hmem | hmem
    · simp only [List.mem_map] at hmem
      obtain ⟨sub0, hsub0, rfl⟩ := hmem
      have := hs sub0 hsub0
      split
      · exact this
      · exact this
    · rw [List.mem_singleton.mp hmem]
  split
  · exact ⟨by trivial, hr, by trivial, by trivial, hsubs⟩
  · exact ⟨by trivial, hr, by trivial, by trivial, hsubs⟩

theorem c5_loop (fuel : Nat) : ∀ st : St,
    st.runningEffects = true → st.effectQueue = [1] →
    depsRecord (depsClear st.effectDeps 1) 1 0 = [(1, [0])] →
    (∀ sub ∈ st.subs, sub.fnId = 1) →
    runEffectsLoop progC5 fuel st = none := by
  induction fuel with
  | zero => intro st _ _ _ _; rfl
  | succ fuel ih =>
      intro st hr hq hd hs
      rw [runEffectsLoop_cons progC5 fuel st 1 [] hq]
      have hstep := c5_step { st with effectQueue := [] } hr rfl hd hs
      rcases hc : createDeferredEffect progC5 { st with effectQueue := [] } 1 none
        with ⟨st2, oc⟩
      rw [hc] at hstep
      obtain ⟨hoc, hr2, hq2, hd2, hs2⟩ := hstep
      simp only at hoc hr2 hq2 hd2 hs2
      subst hoc
      simp only
      exact ih st2 hr2 hq2 hd2 hs2

/-- C5: a deferred effect whose body reads tracked signal `0` and then
writes it — so on every replay during a flush the written signal's writer
is in the effect's own just-recorded dependency set — is re-added to the
tail of the Pending Queue by its own write, the flush loop visits it
again, and the flush loop never terminates: `runEffects` returns `none`
for every amount of fuel. -/
theorem c5_self_write_never_terminates (fuel : Nat) (st : St)
    (hq : st.effectQueue = [1])
    (hd : st.effectDeps = [] ∨ ∃ d, st.effectDeps = [(1, d)])
    (hs : ∀ sub ∈ st.subs, sub.fnId = 1) :
    runEffects progC5 fuel st = none := by
  unfold runEffects
  refine c5_loop fuel _ rfl hq ?_ hs
  rcases hd with hd | ⟨d, hd⟩
  · rw [hd]
    rfl
  · rw [hd]
    simp [depsClear, depsRecord, addIfAbsent]

/-- Witness for C5: from the concrete pre-flush state `c5Start`, the flush
diverges at fuel 9 (and, by the theorem, at every fuel). -/
theorem c5_self_write_never_terminates_witness :
    runEffects progC5 9 c5Start = none :=
  c5_self_write_never_terminates 9 c5Start rfl
    (Or.inr ⟨[0], rfl⟩) (by decide)

/-! ## Claim C7 -/

theorem reorderQueue_not_mem (x : SigId) (fn : EffId) :
    ∀ (m : List (EffId × List SigId)) (q : List EffId),
      (∀ p ∈ m, p.1 = fn → x ∉ p.2) → fn ∉ q → fn ∉ reorderQueue m x q := by
  intro m
  induction m with
  | nil => intro q _ hq; exact hq
  | cons p m ih =>
      intro q hm hq
      obtain ⟨f, ds⟩ := p
      have hstep : fn ∉ (if x ∈ ds then moveToTail q f else q) := by
        split
        · rename_i hx
          have hfne : f ≠ fn := fun he =>
            (hm (f, ds) (List.mem_cons_self _ _) he) hx
          unfold moveToTail
          intro hc
          rcases List.mem_append.mp hc with h1 | h1
          · exact hq (List.mem_of_mem_filter h1)
          · exact hfne (List.mem_singleton.mp h1).symm
        · exact hq
      exact ih _ (fun p hp => hm p (List.mem_cons_of_mem _ hp)) hstep

theorem foldl_subsequentRun_not_mem (fn : EffId) :
    ∀ (l : List EffId) (st : St), fn ∉ st.effectQueue → (∀ y ∈ l, y ≠ fn) →
      fn ∉ (l.foldl subsequentRun st).effectQueue := by
  intro l
  induction l with
  | nil => intro st h _; exact h
  | cons y ys ih =>
      intro st h hl
      rw [List.foldl_cons]
      refine ih (subsequentRun st y) ?_
        (fun z hz => hl z (List.mem_cons_of_mem _ hz))
      rw [subsequentRun_effectQueue]
      unfold addIfAbsent
      split
      · exact h
      · intro hc
        rcases List.mem_append.mp hc with h1 | h1
        · exact h h1
        · exact hl y (List.mem_cons_self _ _) (List.mem_singleton.mp h1).symm

theorem baseSet_not_mem (st : St) (x : SigId) (v : Val) (fn : EffId)
    (hq : fn ∉ st.effectQueue)
    (hsubs : ∀ sub ∈ st.subs, sub.fnId = fn → x ∉ sub.deps) :
    fn ∉ (baseSet st x v).effectQueue := by
  unfold baseSet
  refine foldl_subsequentRun_not_mem fn _ _ hq ?_
  intro y hy
  simp only [List.mem_map, List.mem_filter] at hy
  obtain ⟨sub, ⟨hsub, hxd⟩, rfl⟩ := hy
  intro he
  exact (hsubs sub hsub he) (by simpa using hxd)

/-- C7: an effect whose last recorded reads do not include signal `x` —
neither in its Dependency Registry entry (last tracked run) nor in any of
its live base subscriptions (last base-tracked run), both of which are
rebuilt from scratch on every run because the sets are cleared/replaced
immediately before each synchronous run — is not put on the Pending Queue
by a write to `x`, in or out of a flush.  Concretely (spec §8 dynamic
dependencies): an effect that reads signal `1` only while signal `0` is
non-zero, once replayed after `0` became zero, has registry entry `[0]`,
and a subsequent write to signal `1` leaves the queue empty and schedules
nothing. -/
theorem c7_dynamic_deps_no_requeue :
    (∀ (st : St) (x : SigId) (v : Val) (fn : EffId),
      fn ∉ st.effectQueue →
      (∀ p ∈ st.effectDeps, p.1 = fn → x ∉ p.2) →
      (∀ sub ∈ st.subs, sub.fnId = fn → x ∉ sub.deps) →
      fn ∉ (signalSet st x v).effectQueue) ∧
    (runMicrotask progC7 10 c7AfterCondOff).map
        (fun p => (depsLookup p.1.effectDeps 1,
          (signalSet p.1 1 99).effectQueue,
          (signalSet p.1 1 99).microtasks,
          (signalSet p.1 1 99).effectTaskIsScheduled)) =
      some (some [0], [], [], false) := by
  constructor
  · intro st x v fn hq hdeps hsubs
    unfold signalSet
    split
    · refine baseSet_not_mem _ x v fn ?_ hsubs
      exact reorderQueue_not_mem x fn st.effectDeps st.effectQueue hdeps hq
    · exact baseSet_not_mem st x v fn hq hsubs
  · decide

/-- Witness for C7's universally quantified part at a concrete state:
effect `4`, with no recorded dependency on signal `0`, is not enqueued by
a write to signal `0` during the flush state `c6Start`. -/
theorem c7_dynamic_deps_no_requeue_witness :
    4 ∉ (signalSet c6Start 0 5).effectQueue :=
  c7_dynamic_deps_no_requeue.1 c6Start 0 5 4 (by decide) (by decide) (by decide)

/-! ## Claim C8 -/

/-- C8: when a queued effect throws during a flush, the exception is not
caught or retried — the flush returns with outcome `threw`, leaving
`runningEffects` still `true` and `effectTaskIsScheduled` exactly as it was
at entry (i.e. still `true` for a scheduled flush).  At the concrete input
`c8Start` (throwing effect `1` queued ahead of logging effect `2`), the
microtask flush propagates the exception, effect `2` is left unexecuted
for that tick (the log stays empty) and still queued, and both flags are
left inconsistent: `runningEffects = true`, `effectTaskIsScheduled =
true`. -/
theorem c8_throw_leaves_flags :
    (∀ (prog : Prog) (fuel : Nat) (st st1 : St),
      runEffects prog fuel st = some (st1, Outcome.threw) →
      st1.runningEffects = true ∧
        st1.effectTaskIsScheduled = st.effectTaskIsScheduled) ∧
    (runMicrotask progC8 10 c8Start).map
        (fun p => (p.1.out, p.1.effectQueue, p.1.runningEffects,
          p.1.effectTaskIsScheduled, p.2)) =
      some ([], [2], true, true, Outcome.threw) := by
  constructor
  · intro prog fuel st st1 h
    have hflush := runEffectsLoop_flush prog fuel
      { st with runningEffects := true } st1 Outcome.threw rfl h
    exact hflush.2.2 rfl
  · decide

/-- Witness for C8's universally quantified part: the concrete diverging
flush of `c8Start` ends with `runningEffects` true and the scheduled flag
untouched. -/
theorem c8_throw_leaves_flags_witness :
    ((runEffects progC8 10 c8Start).getD (c8Start, Outcome.ok)).1.runningEffects
        = true ∧
      ((runEffects progC8 10 c8Start).getD (c8Start, Outcome.ok)).1.effectTaskIsScheduled
        = c8Start.effectTaskIsScheduled :=
  c8_throw_leaves_flags.1 progC8 10 c8Start
    ((runEffects progC8 10 c8Start).getD (c8Start, Outcome.ok)).1 rfl

/-! ## Claim C9 -/

theorem depsLookup_eq_none (m : List (EffId × List SigId)) (e : EffId) :
    depsLookup m e = none ↔ ∀ p ∈ m, p.1 ≠ e := by
  unfold depsLookup
  constructor
  · intro h p hp
    rcases hf : m.find? (fun p => p.1 == e) with _ | q
    · have := List.find?_eq_none.mp hf p hp
      simpa using this
    · rw [hf] at h
      simp at h
  · intro h
    have hf : m.find? (fun p => p.1 == e) = none := by
      rw [List.find?_eq_none]
      intro p hp
      simpa using h p hp
    rw [hf]
    rfl

theorem cleanupRun_self (st : St) (fn : EffId) :
    fn ∉ (cleanupRun st fn).effectQueue ∧
      depsLookup (cleanupRun st fn).effectDeps fn = none := by
  constructor
  · intro hc
    have := (List.mem_filter.mp hc).2
    simp at this
  · rw [depsLookup_eq_none]
    intro p hp
    have := (List.mem_filter.mp hp).2
    simpa using this

theorem cleanupRun_mono (st : St) (fn y : EffId)
    (h1 : fn ∉ st.effectQueue) (h2 : depsLookup st.effectDeps fn = none) :
    fn ∉ (cleanupRun st y).effectQueue ∧
      depsLookup (cleanupRun st y).effectDeps fn = none := by
  constructor
  · intro hc
    exact h1 (List.mem_of_mem_filter hc)
  · rw [depsLookup_eq_none]
    intro p hp
    exact (depsLookup_eq_none st.effectDeps fn).mp h2 p (List.mem_of_mem_filter hp)

theorem foldl_cleanupRun_keeps_removed (fn : EffId) :
    ∀ (l : List EffId) (st : St),
      fn ∉ st.effectQueue → depsLookup st.effectDeps fn = none →
      fn ∉ (l.foldl cleanupRun st).effectQueue ∧
        depsLookup (l.foldl cleanupRun st).effectDeps fn = none := by
  intro l
  induction l with
  | nil => intro st h1 h2; exact ⟨h1, h2⟩
  | cons y ys ih =>
      intro st h1 h2
      rw [List.foldl_cons]
      have := cleanupRun_mono st fn y h1 h2
      exact ih (cleanupRun st y) this.1 this.2

/-- Running the registered cleanup callbacks on scope disposal removes an
effect with a registered cleanup from both the Pending Queue and the
Dependency Registry. -/
theorem dispose_removes (st : St) (fn : EffId) (h : fn ∈ st.cleanups) :
    fn ∉ (dispose st).effectQueue ∧
      depsLookup (dispose st).effectDeps fn = none := by
  obtain ⟨l1, l2, hl⟩ := List.append_of_mem h
  unfold dispose
  rw [hl, List.foldl_append, List.foldl_cons]
  have hself := cleanupRun_self (l1.foldl cleanupRun st) fn
  exact foldl_cleanupRun_keeps_removed fn l2 _ hself.1 hself.2

/-- On a normally-returning registration, the base subscription list gains
exactly one subscription for `fn`, and the cleanup list gains `fn` exactly
when an ownership scope was active. -/
theorem createDeferredEffect_ok (prog : Prog) (st : St) (fn : EffId)
    (v : Option Val) (st1 : St)
    (h : createDeferredEffect prog st fn v = (st1, Outcome.ok)) :
    st1.subs.map BaseSub.fnId = st.subs.map BaseSub.fnId ++ [fn] ∧
    st1.cleanups = st.cleanups ++ (if st.owner then [fn] else []) := by
  have hp := runCmds_preserved (prog fn)
    { st with currentEffect := fn, effectDeps := depsClear st.effectDeps fn } v
  simp only [createDeferredEffect] at h
  set stc : St :=
    { st with currentEffect := fn, effectDeps := depsClear st.effectDeps fn }
    with hstc
  rcases hoc : (runCmds stc v (prog fn)).2.2 with _ | _
  · rw [hoc] at h
    simp only at h
    split at h
    · rename_i how
      simp only [Prod.mk.injEq] at h
      obtain ⟨h1, _⟩ := h
      subst h1
      have how2 : st.owner = true := by
        have h3 : (runCmds stc v (prog fn)).1.owner = true := how
        rw [hp.2.1] at h3
        exact h3
      constructor
      · dsimp only
        simp [hp.2.2.2.2]
      · dsimp only
        simp [hp.2.2.2.1, how2]
    · rename_i how
      simp only [Prod.mk.injEq] at h
      obtain ⟨h1, _⟩ := h
      subst h1
      have how2 : st.owner = false := by
        rcases hb : st.owner with _ | _
        · rfl
        · refine absurd ?_ how
          show (runCmds stc v (prog fn)).1.owner = true
          rw [hp.2.1]
          exact hb
      constructor
      · dsimp only
        simp [hp.2.2.2.2]
      · dsimp only
        simp [hp.2.2.2.1, how2]
  · rw [hoc] at h
    simp only [Prod.mk.injEq] at h
    exact absurd h.2 (fun hc => nomatch hc)

/-- C9: a cleanup callback is registered exactly when an ownership scope
is active at registration time (on a normal first run the cleanup list
gains the effect if and only if the scope was active); disposing the scope
runs the callbacks, removing the effect from both the Dependency Registry
and the Pending Queue; and in the concrete scenario — registration under a
scope, a write queueing the effect and scheduling a flush, then disposal
before the flush — the flush microtask completes normally without invoking
the torn-down effect (its log gains nothing beyond the first run). -/
theorem c9_cleanup_scope :
    (∀ (prog : Prog) (st : St) (fn : EffId) (v : Option Val) (st1 : St),
      createDeferredEffect prog st fn v = (st1, Outcome.ok) →
      st1.cleanups = st.cleanups ++ (if st.owner then [fn] else [])) ∧
    (∀ (st : St) (fn : EffId), fn ∈ st.cleanups →
      fn ∉ (dispose st).effectQueue ∧
        depsLookup (dispose st).effectDeps fn = none) ∧
    c9AfterRegister.cleanups = [1] ∧
    c9AfterWrite.effectQueue = [1] ∧
    c9AfterWrite.microtasks = [true] ∧
    c9AfterDispose.effectQueue = [] ∧
    c9AfterDispose.effectDeps = [] ∧
    (runMicrotask progC9 10 c9AfterDispose).map
        (fun p => (p.1.out, p.1.effectQueue, p.1.runningEffects,
          p.1.effectTaskIsScheduled, p.2)) =
      some ([some 4], [], false, false, Outcome.ok) := by
  refine ⟨?_, dispose_removes, by decide, by decide, by decide, by decide,
    by decide, by decide⟩
  intro prog st fn v st1 h
  exact (createDeferredEffect_ok prog st fn v st1 h).2

/-- Witness for C9: disposing the scenario scope removes effect `1` from
both structures. -/
theorem c9_cleanup_scope_witness :
    1 ∉ (dispose c9AfterWrite).effectQueue ∧
      depsLookup (dispose c9AfterWrite).effectDeps 1 = none :=
  c9_cleanup_scope.2.1 c9AfterWrite 1 (by decide)

/-! ## Claim C10 -/

/-- C10: every flush-loop iteration replays the dequeued effect by
invoking the registration entry point anew, so each normally-returning
replay calls the base effect primitive again — the base subscription list
gains exactly one more subscription for the same function reference
(subscription count grows by one per replay) — and, whenever an ownership
scope is active at replay time, one more cleanup callback is registered. -/
theorem c10_replay_grows_subscriptions :
    (∀ (prog : Prog) (st : St) (fn : EffId) (v : Option Val) (st1 : St),
      createDeferredEffect prog st fn v = (st1, Outcome.ok) →
      st1.subs.map BaseSub.fnId = st.subs.map BaseSub.fnId ++ [fn] ∧
      st1.subs.length = st.subs.length + 1 ∧
      st1.cleanups.length = st.cleanups.length +
        (if st.owner then 1 else 0)) ∧
    (∀ (prog : Prog) (fuel : Nat) (st : St) (fn : EffId) (rest : List EffId),
      st.effectQueue = fn :: rest →
      runEffectsLoop prog (fuel + 1) st =
        match createDeferredEffect prog { st with effectQueue := rest } fn none with
        | (st2, Outcome.threw) => some (st2, Outcome.threw)
        | (st2, Outcome.ok) => runEffectsLoop prog fuel st2) := by
  constructor
  · intro prog st fn v st1 h
    have hok := createDeferredEffect_ok prog st fn v st1 h
    refine ⟨hok.1, ?_, ?_⟩
    · have hlen := congrArg List.length hok.1
      simpa using hlen
    · rw [hok.2]
      rcases how : st.owner with _ | _ <;> simp
  · intro prog fuel st fn rest hq
    exact runEffectsLoop_cons prog fuel st fn rest hq

/-- Witness for C10: registering effect `4` under an active scope creates
one base subscription for it and one cleanup callback. -/
theorem c10_replay_grows_subscriptions_witness :
    (createDeferredEffect progC1 (initSt (fun _ => 0) true) 4 none).1.subs.map
        BaseSub.fnId =
      (initSt (fun _ => 0) true).subs.map BaseSub.fnId ++ [4] ∧
    (createDeferredEffect progC1 (initSt (fun _ => 0) true) 4 none).1.subs.length =
      (initSt (fun _ => 0) true).subs.length + 1 ∧
    (createDeferredEffect progC1 (initSt (fun _ => 0) true) 4 none).1.cleanups.length =
      (initSt (fun _ => 0) true).cleanups.length +
        (if (initSt (fun _ => 0) true).owner then 1 else 0) :=
  c10_replay_grows_subscriptions.1 progC1 (initSt (fun _ => 0) true) 4 none
    (createDeferredEffect progC1 (initSt (fun _ => 0) true) 4 none).1 rfl

/-! ## Claim C2 -/

theorem depFns_sub_keys (m : List (EffId × List SigId)) (s : SigId) :
    ∀ x ∈ depFns m s, x ∈ m.map Prod.fst := by
  intro x hx
  unfold depFns at hx
  simp only [List.mem_map, List.mem_filter] at hx
  obtain ⟨p, ⟨hp, _⟩, rfl⟩ := hx
  exact List.mem_map_of_mem Prod.fst hp

/-- The registry scan, characterised: with distinct registry keys (a Map
invariant), the resulting queue is the non-dependent queued effects in
their original order, followed by every registry-dependent effect in map
insertion order — dependents land at the tail, and a dependent effect
absent from the queue is added to it. -/
theorem reorderQueue_eq (m : List (EffId × List SigId)) (s : SigId) :
    (m.map Prod.fst).Nodup → ∀ q : List EffId,
      reorderQueue m s q =
        q.filter (fun e => decide (e ∉ depFns m s)) ++ depFns m s := by
  induction m with
  | nil =>
      intro _ q
      simp [reorderQueue, depFns]
  | cons p m ih =>
      obtain ⟨f, ds⟩ := p
      intro hm q
      rw [List.map_cons, List.nodup_cons] at hm
      obtain ⟨hf, hm2⟩ := hm
      have hfd : f ∉ depFns m s := fun hc => hf (depFns_sub_keys m s f hc)
      by_cases hs : s ∈ ds
      · have hdf : depFns ((f, ds) :: m) s = f :: depFns m s := by
          simp [depFns, List.filter_cons, hs]
        have hstep : reorderQueue ((f, ds) :: m) s q =
            reorderQueue m s (moveToTail q f) := by
          simp [reorderQueue, List.foldl_cons, hs]
        have hsingle : List.filter (fun e => decide (e ∉ depFns m s)) [f] = [f] := by
          simp [hfd]
        have hfilters :
            List.filter (fun e => decide (e ∉ f :: depFns m s)) q =
              List.filter (fun e => decide (e ∉ depFns m s))
                (List.filter (fun x => !(x == f)) q) := by
          rw [List.filter_filter]
          refine List.filter_congr ?_
          intro e _
          simp only [List.mem_cons, not_or]
          by_cases h1 : e = f <;> by_cases h2 : e ∈ depFns m s <;>
            simp [h1, h2]
        rw [hstep, ih hm2 (moveToTail q f), hdf, hfilters]
        unfold moveToTail
        rw [List.filter_append, hsingle]
        simp [List.append_assoc]
      · have hdf : depFns ((f, ds) :: m) s = depFns m s := by
          simp [depFns, List.filter_cons, hs]
        have hstep : reorderQueue ((f, ds) :: m) s q = reorderQueue m s q := by
          simp [reorderQueue, List.foldl_cons, hs]
        rw [hstep, ih hm2 q, hdf]

theorem baseSet_queue_mem (st : St) (s : SigId) (v : Val) (x : EffId)
    (hx : x ∈ st.effectQueue) : x ∈ (baseSet st s v).effectQueue := by
  unfold baseSet
  exact foldl_subsequentRun_mem _ _ x hx

/-- C2: while a flush is in progress, a tracked signal write first runs the
registry scan — every effect whose Dependency Registry entry contains the
written signal's writer capability is removed and re-appended, landing at
the tail of the Pending Queue in registry insertion order while
non-dependent queued effects keep their relative order — and only then
delegates to the base writer; no dependent effect is skipped, and every
dependent effect (queued or mid-execution, i.e. already dequeued) is a
member of the queue after the write. -/
theorem c2_flush_write_reorders (st : St) (s : SigId) (v : Val)
    (hrun : st.runningEffects = true)
    (hkeys : (st.effectDeps.map Prod.fst).Nodup) :
    signalSet st s v =
      baseSet { st with
        effectQueue := reorderQueue st.effectDeps s st.effectQueue } s v ∧
    reorderQueue st.effectDeps s st.effectQueue =
      st.effectQueue.filter (fun e => decide (e ∉ depFns st.effectDeps s)) ++
        depFns st.effectDeps s ∧
    ∀ fn ∈ depFns st.effectDeps s, fn ∈ (signalSet st s v).effectQueue := by
  have heq := reorderQueue_eq st.effectDeps s hkeys st.effectQueue
  refine ⟨by simp [signalSet, hrun], heq, ?_⟩
  intro fn hfn
  have hmem : fn ∈ reorderQueue st.effectDeps s st.effectQueue := by
    rw [heq]
    exact List.mem_append_right _ hfn
  simp only [signalSet, hrun, if_true]
  exact baseSet_queue_mem _ s v fn hmem

/-- Witness for C2: in the concrete flush state `c2Start`, effect `2` —
dependent on signal `0` but not currently queued (it is mid-execution) —
is put back on the queue by a write to signal `0`. -/
theorem c2_flush_write_reorders_witness :
    (2 : EffId) ∈ (signalSet c2Start 0 9).effectQueue :=
  (c2_flush_write_reorders c2Start 0 9 rfl (by decide)).2.2 2 (by decide)

/-! ## Claim C3 -/

theorem depsLookup_cons_ne (f : EffId) (ds : List SigId)
    (m : List (EffId × List SigId)) (e : EffId) (h : f ≠ e) :
    depsLookup ((f, ds) :: m) e = depsLookup m e := by
  simp [depsLookup, List.find?_cons, h]

/-- Re-registering effect `e` clears its registry entry (or starts a fresh
one) and then records exactly the reads of the new run: after a
single-read run the entry is exactly `[s]`, whatever was there before. -/
theorem depsLookup_record_clear (m : List (EffId × List SigId)) (e : EffId)
    (s : SigId) :
    depsLookup (depsRecord (depsClear m e) e s) e = some [s] := by
  induction m with
  | nil => simp [depsClear, depsRecord, depsLookup, addIfAbsent]
  | cons p m ih =>
      obtain ⟨f, ds⟩ := p
      by_cases hf : f = e
      · subst hf
        have h1 : depsClear ((f, ds) :: m) f = (f, []) :: depsClear m f := by
          simp [depsClear]
        have h2 : depsRecord ((f, ([] : List SigId)) :: depsClear m f) f s =
            (f, addIfAbsent [] s) :: depsClear m f := by
          simp [depsRecord]
        have h3 : addIfAbsent [] s = [s] := by simp [addIfAbsent]
        rw [h1, h2, h3]
        rw [depsLookup, List.find?_cons_of_pos _ (by simp)]
        rfl
      · have h1 : depsClear ((f, ds) :: m) e = (f, ds) :: depsClear m e := by
          simp [depsClear, hf]
        have h2 : depsRecord ((f, ds) :: depsClear m e) e s =
            (f, ds) :: depsRecord (depsClear m e) e s := by
          simp [depsRecord, hf]
        rw [h1, h2, depsLookup_cons_ne f ds _ e hf]
        exact ih

/-- C3 is wrong about the code: the flush loop replays a dequeued effect by
calling `createDeferredEffect(fn)` afresh (line 128), whose new wrapper has
its own `initial = true`, so the replay runs through the FIRST-run path.
At this concrete input — effect `1` queued with a stale registry entry
`[9]`, body `out.push(prev); read signal 0` — the replay logs `none`
(`undefined`, not a previous return value) and the registry entry ends as
exactly `[0]`: the stale dependency 9 was cleared before the replay, not
accumulated, contradicting both halves of the claim. -/
theorem c3_counterexample :
    (runEffects progC3 3 c3Start).map
        (fun p => (p.1.out,
          (depsLookup p.1.effectDeps 1).map (fun ds => decide (9 ∈ ds)), p.2)) =
      some ([none], some false, Outcome.ok) := by
  decide

/-- C3 corrected: the flush loop replays a dequeued effect by invoking the
registration entry point anew (`createDeferredEffect(fn)`, line 128), whose
fresh wrapper takes the FIRST-run path: the effect function is re-executed
with `undefined` (no initial value) as its argument — not its previous
return value — and its Dependency Registry entry IS cleared immediately
before the replay, so that afterwards it holds exactly the reads performed
during the replay. -/
theorem c3_replay_first_run_path :
    (∀ (prog : Prog) (fuel : Nat) (st : St) (fn : EffId) (rest : List EffId),
      st.effectQueue = fn :: rest →
      runEffectsLoop prog (fuel + 1) st =
        match createDeferredEffect prog { st with effectQueue := rest } fn none with
        | (st2, Outcome.threw) => some (st2, Outcome.threw)
        | (st2, Outcome.ok) => runEffectsLoop prog fuel st2) ∧
    (∀ (prog : Prog) (st : St) (fn : EffId) (s : SigId),
      st.runningEffects = true → prog fn = [Cmd.readSig s] →
      depsLookup (createDeferredEffect prog st fn none).1.effectDeps fn =
        some [s]) := by
  refine ⟨fun prog fuel st fn rest hq =>
    runEffectsLoop_cons prog fuel st fn rest hq, ?_⟩
  intro prog st fn s hr hp
  simp only [createDeferredEffect, hp, runCmds, signalGet, hr, if_true]
  split
  all_goals exact depsLookup_record_clear st.effectDeps fn s

/-- Witness for the corrected C3 at the concrete flush state `c3Start`
augmented with a running flush: the replayed single-read body leaves the
registry entry at exactly `[0]`. -/
theorem c3_replay_first_run_path_witness :
    depsLookup (createDeferredEffect (fun _ => [Cmd.readSig 0])
        { c3Start with runningEffects := true } 1 none).1.effectDeps 1 =
      some [0] :=
  c3_replay_first_run_path.2 (fun _ => [Cmd.readSig 0])
    { c3Start with runningEffects := true } 1 0 rfl rfl

/-! ## Claim C4 -/

/-- C4 is wrong about the code: on a first run performed outside a flush
(`runningEffects` false), the tracked `get` takes the untracked fast path
(line 31), so nothing is recorded into the Dependency Registry.  At this
concrete input the effect executes synchronously (the log receives the
signal's value) yet `effectDeps` stays empty. -/
theorem c4_counterexample :
    (createDeferredEffect progC1 (initSt (fun _ => 7) false) 2 none).1.effectDeps
        = [] ∧
    (createDeferredEffect progC1 (initSt (fun _ => 7) false) 2 none).1.out
        = [some 7] := by
  exact ⟨by decide, by decide⟩

/-- C4 corrected: on a registered effect's first run the effect executes
synchronously (here: its log entry is appended before registration
returns) and is marked as the currently-executing effect; but its
tracked-signal reads are recorded into the Dependency Registry only when a
flush is in progress (i.e. when the first run is a replay inside
`runEffects`).  Outside a flush the reads take the untracked fast path and
the registry is left untouched apart from the clearing of the effect's own
stale entry. -/
theorem c4_first_run_tracking :
    (∀ (prog : Prog) (st : St) (fn : EffId) (v : Option Val) (s : SigId),
      prog fn = [Cmd.pushRead s] →
      (createDeferredEffect prog st fn v).1.out = st.out ++ [some (st.sigVal s)] ∧
      (createDeferredEffect prog st fn v).1.currentEffect = fn) ∧
    (∀ (prog : Prog) (st : St) (fn : EffId) (v : Option Val) (s : SigId),
      st.runningEffects = true → prog fn = [Cmd.pushRead s] →
      depsLookup (createDeferredEffect prog st fn v).1.effectDeps fn =
        some [s]) ∧
    (∀ (prog : Prog) (st : St) (fn : EffId) (v : Option Val) (s : SigId),
      st.runningEffects = false → prog fn = [Cmd.pushRead s] →
      (createDeferredEffect prog st fn v).1.effectDeps =
        depsClear st.effectDeps fn) := by
  refine ⟨?_, ?_, ?_⟩
  · intro prog st fn v s hp
    rcases hr : st.runningEffects with _ | _
    · simp only [createDeferredEffect, hp, runCmds, signalGet, hr,
        Bool.false_eq_true, if_false]
      constructor
      all_goals split
      all_goals rfl
    · simp only [createDeferredEffect, hp, runCmds, signalGet, hr, if_true]
      constructor
      all_goals split
      all_goals rfl
  · intro prog st fn v s hr hp
    simp only [createDeferredEffect, hp, runCmds, signalGet, hr, if_true]
    split
    all_goals exact depsLookup_record_clear st.effectDeps fn s
  · intro prog st fn v s hr hp
    simp only [createDeferredEffect, hp, runCmds, signalGet, hr,
      Bool.false_eq_true, if_false]
    split
    all_goals rfl

/-- Witness for the corrected C4: a top-level registration (no flush in
progress) leaves the registry at the cleared entry only, while the same
first run performed during a flush records the read. -/
theorem c4_first_run_tracking_witness :
    (createDeferredEffect progC1 (initSt (fun _ => 7) false) 3 none).1.out =
        [] ++ [some 7] ∧
    (createDeferredEffect progC1 (initSt (fun _ => 7) false) 3 none).1.effectDeps =
      depsClear [] 3 :=
  ⟨((c4_first_run_tracking.1 progC1 (initSt (fun _ => 7) false) 3 none 0 rfl).1),
    c4_first_run_tracking.2.2 progC1 (initSt (fun _ => 7) false) 3 none 0 rfl rfl⟩

/-! ## Claim C6 -/

/-- C6 is wrong about the code in one point: `effectQueue.add(fn)`
(line 94) on a JavaScript `Set` does NOT move an already-present element to
the tail — insertion order is kept from the first insertion.  At this
concrete input (queue `[1, 2]`, flush running), a base re-run of effect `1`
leaves the queue `[1, 2]`, not `[2, 1]` as "moved to the tail" would
demand. -/
theorem c6_counterexample :
    (subsequentRun c6Start 1).effectQueue = [1, 2] ∧
      (subsequentRun c6Start 1).effectQueue ≠ [2, 1] := by
  exact ⟨by decide, by decide⟩

end ClassySolid
